import Mathlib

/-!
Verification of the configuration state manager of `charms.helper`
(`src/charms/tool/utils.py` and `src/charms/model/unit.py`).

The development shallowly embeds:

* parsed JSON values (`Json`) together with Python's `==` on them (`pyEq`),
* Python `dict` semantics over string keys (`alookup`, `dictSet`, ...),
* the `Config` class of `src/charms/tool/utils.py` (`Config.init`,
  `Config.load_previous`, `Config.changed`, `Config.previous`, ...),
* the memoization decorator `cached` of `src/charms/tool/utils.py`
  (`serializeKey`, `cachedWrapper`),
* the deferred-callback registration `atexit` of `src/charms/tool/utils.py`
  (`atexitRegister`),
* the `config` function of `src/charms/model/unit.py` (`configImpl`),
* a small mutable heap (`Heap`, `allocJson`, `readback`) used to reason
  about object identity and `copy.deepcopy` in `Config.load_previous`.
-/

/-- Parsed JSON values as produced by Python's `json.loads` / `json.load`.
Numbers are modelled as integers (the values exercised by the code under
study are integers and strings); `null` is Python's `None`. -/
inductive Json where
  | null : Json
  | bool : Bool → Json
  | num : Int → Json
  | str : String → Json
  | arr : List Json → Json
  | obj : List (String × Json) → Json

mutual

/-- Models Python's `==` on JSON-parsed values: `None`, `bool`, `int`
and `str` compare as usual, with the Python quirk that `True == 1` and
`False == 0`; lists compare pointwise; dicts compare as finite maps
(insertion order is irrelevant). -/
def pyEq : Json → Json → Bool
  | Json.null, Json.null => true
  | Json.bool a, Json.bool b => a == b
  | Json.bool a, Json.num n => (if a then (1 : Int) else 0) == n
  | Json.num n, Json.bool a => n == (if a then (1 : Int) else 0)
  | Json.num a, Json.num b => a == b
  | Json.str a, Json.str b => a == b
  | Json.arr a, Json.arr b => pyEqList a b
  | Json.obj a, Json.obj b => pyEqFields a b && pyEqFields b a
  | _, _ => false
termination_by a b => sizeOf a + sizeOf b

def pyEqList : List Json → List Json → Bool
  | [], [] => true
  | a :: as, b :: bs => pyEq a b && pyEqList as bs
  | _, _ => false
termination_by as bs => sizeOf as + sizeOf bs

/-- One-sided dict inclusion: every binding of the first dict is matched
in the second. -/
def pyEqFields : List (String × Json) → List (String × Json) → Bool
  | [], _ => true
  | (k, v) :: rest, b => pyEqFind k v b && pyEqFields rest b
termination_by x y => sizeOf x + sizeOf y

def pyEqFind (k : String) (v : Json) : List (String × Json) → Bool
  | [] => false
  | (k1, v1) :: rest => if k1 = k then pyEq v v1 else pyEqFind k v rest
termination_by l => sizeOf v + sizeOf l

end

/-- Association-list lookup; first binding wins, which matches Python
`dict` since our dict operations keep keys unique. -/
def alookup {α β : Type} [DecidableEq α] : List (α × β) → α → Option β
  | [], _ => none
  | (k1, v) :: rest, k => if k1 = k then some v else alookup rest k

/-- Python `d[k] = v`: replace the value in place if the key is present
(the key keeps its insertion position), append otherwise.  Our dicts
keep keys unique, as Python's do. -/
def dictSet {β : Type} : List (String × β) → String → β → List (String × β)
  | [], k, v => [(k, v)]
  | (k1, v1) :: rest, k, v =>
      if k1 = k then (k, v) :: rest else (k1, v1) :: dictSet rest k v

/-- Build a Python dict from a sequence of pairs (later bindings win),
modelling `dict(pairs)` / `dict.__init__`. -/
def dictOfPairs {β : Type} (ps : List (String × β)) : List (String × β) :=
  ps.foldl (fun d kv => dictSet d kv.1 kv.2) []

/-- Python's `d.get(k)` whose default is `None`: a missing key reads as
`Json.null`, exactly the collapse performed by `dict.get` with no
default argument. -/
def pyGet (d : List (String × Json)) (k : String) : Json :=
  (alookup d k).getD Json.null

/-- Process environment and filesystem visible to the code under study:
`CHARM_DIR` (assumed set, as `charm_dir()` is only used where it is) and
the snapshot files, keyed by path and already JSON-decoded to the object
(dict) each one holds. -/
structure Env where
  charm_dir : String
  files : List (String × List (String × Json))

/-- Model of `os.path.join(a, b)` for the absolute-directory + filename
uses in the source. -/
def os_path_join (a b : String) : String := a ++ "/" ++ b

/-- The fixed snapshot filename `Config.CONFIG_FILE_NAME`. -/
def CONFIG_FILE_NAME : String := ".juju-persistent-config"

/-- State of a `Config` instance (`src/charms/tool/utils.py`): the dict
contents it inherits from `dict` (`data`), the `implicit_save` flag, the
lazily-or-eagerly loaded `_prev_dict`, and the snapshot `path`. -/
structure Config where
  data : List (String × Json)
  implicit_save : Bool
  _prev_dict : Option (List (String × Json))
  path : String

/-- Embeds the merge loop of `Config.load_previous`:
`for k, v in copy.deepcopy(self._prev_dict).items(): if k not in self:
self[k] = v`.  At the level of values `copy.deepcopy` is the identity;
its aliasing behaviour is studied separately on the heap model. -/
def mergePrev (data prev : List (String × Json)) : List (String × Json) :=
  prev.foldl
    (fun d kv => match alookup d kv.1 with
      | some _ => d
      | none => dictSet d kv.1 kv.2)
    data

/-- Embeds `Config.load_previous(self, path=None)`.  The Python body
first rebinds `self.path = path or self.path` (an empty-string argument
falls back like `None` does), then `open`s the file: when the file is
missing the exception escapes with `self.path` already rebound, which
the model renders as the updated record paired with `false`.  On
success `_prev_dict` is set to the decoded file and missing keys are
merged into the dict contents. -/
def Config.load_previous (c : Config) (env : Env) (path : Option String) :
    Config × Bool :=
  let p := match path with
    | none => c.path
    | some s => if s = "" then c.path else s
  let c1 := { c with path := p }
  match alookup env.files p with
  | none => (c1, false)
  | some prev =>
      ({ c1 with _prev_dict := some prev, data := mergePrev c1.data prev },
       true)

/-- Embeds `Config.__init__(self, *args, **kw)`: initialize the dict
contents from the constructor data, set `implicit_save = True` and
`_prev_dict = None`, resolve `self.path` from `charm_dir()`, and when
`os.path.exists(self.path)` call `load_previous()` right away.  The
`atexit(self._implicit_save)` side effect on the process-wide registry
is modelled separately by `atexitRegister`. -/
def Config.init (env : Env) (args : List (String × Json)) : Config :=
  let c0 : Config :=
    { data := dictOfPairs args
      implicit_save := true
      _prev_dict := none
      path := os_path_join env.charm_dir CONFIG_FILE_NAME }
  match alookup env.files c0.path with
  | some _ => (c0.load_previous env none).1
  | none => c0

/-- Embeds `Config.previous(self, key)`: `if self._prev_dict: return
self._prev_dict.get(key); return None`.  Note the Python truthiness
test: a loaded-but-empty snapshot takes the `None` branch. -/
def Config.previous (c : Config) (k : String) : Json :=
  match c._prev_dict with
  | none => Json.null
  | some prev => if prev.isEmpty then Json.null else pyGet prev k

/-- Embeds `Config.changed(self, key)`: `True` when `_prev_dict is
None`, else `self.previous(key) != self.get(key)`. -/
def Config.changed (c : Config) (k : String) : Bool :=
  match c._prev_dict with
  | none => true
  | some _ => !(pyEq (c.previous k) (pyGet c.data k))

/-- Ordinary `config[k] = v` on the inherited dict. -/
def Config.set (c : Config) (k : String) (v : Json) : Config :=
  { c with data := dictSet c.data k v }

/-- Embeds `Config.save(self)`: `json.dump(self, f)` writes the whole
current mapping to `self.path`, leaving the instance itself untouched. -/
def Config.save (c : Config) (env : Env) : Env :=
  { env with files := dictSet env.files c.path c.data }

mutual

/-- Models Python `repr` on JSON-parsed values, as invoked by
`str((func, args, kwargs))` in the `cached` wrapper of
`src/charms/tool/utils.py`.  String escaping of quote characters is not
modelled (the keys and values exercised here contain none); dict
bindings are rendered in insertion order, exactly as CPython does. -/
def reprJson : Json → String
  | Json.null => "None"
  | Json.bool true => "True"
  | Json.bool false => "False"
  | Json.num n => toString n
  | Json.str s => "\x27" ++ s ++ "\x27"
  | Json.arr es => "[" ++ reprJsonList es ++ "]"
  | Json.obj fs => "\x7b" ++ reprJsonFields fs ++ "\x7d"
termination_by j => sizeOf j

def reprJsonList : List Json → String
  | [] => ""
  | [e] => reprJson e
  | e :: es => reprJson e ++ ", " ++ reprJsonList es
termination_by es => sizeOf es

def reprJsonFields : List (String × Json) → String
  | [] => ""
  | [(k, v)] => "\x27" ++ k ++ "\x27: " ++ reprJson v
  | (k, v) :: fs => "\x27" ++ k ++ "\x27: " ++ reprJson v ++ ", " ++
      reprJsonFields fs
termination_by fs => sizeOf fs

end

/-- Python `repr` of the positional-argument tuple, including the
trailing comma of a one-element tuple. -/
def reprArgsTuple : List Json → String
  | [] => "()"
  | [e] => "(" ++ reprJson e ++ ",)"
  | es => "(" ++ reprJsonList es ++ ")"

/-- Embeds the cache-key computation `key = str((func, args, kwargs))`
of the `cached` wrapper.  `funcRepr` stands for the `repr` of the
function object (stable for the process lifetime); `kwargs` is the
keyword dict in its insertion order, which is exactly what CPython's
`str` renders. -/
def serializeKey (funcRepr : String) (args : List Json)
    (kwargs : List (String × Json)) : String :=
  "(" ++ funcRepr ++ ", " ++ reprArgsTuple args ++ ", " ++
    "\x7b" ++ reprJsonFields kwargs ++ "\x7d" ++ ")"

/-- Process-wide state of the module-level `cache` dict, instrumented
with `calls`, the number of completed invocations of the underlying
function (so that "the underlying function is re-invoked" is visible in
the model). -/
structure CacheSt (V : Type) where
  cache : List (String × V)
  calls : Nat

/-- Embeds one call through the wrapper produced by `cached` in
`src/charms/tool/utils.py`: compute `key = str((func, args, kwargs))`;
on a hit return the stored value; on a miss run the function (`f` takes
the current invocation count, standing for the state of the external
world at that moment), store the result under the key and return it.
An exception from the function propagates and nothing is cached
(the wrapper has no handler).  `cache[key] = res` on a missing key is
rendered as prepending the binding, which has the same lookups. -/
def cachedWrapper {E V : Type} (funcRepr : String) (f : Nat → Except E V)
    (args : List Json) (kwargs : List (String × Json)) (st : CacheSt V) :
    Except E (V × CacheSt V) :=
  let key := serializeKey funcRepr args kwargs
  match alookup st.cache key with
  | some res => Except.ok (res, st)
  | none =>
    match f st.calls with
    | Except.error e => Except.error e
    | Except.ok res =>
        Except.ok (res, ⟨(key, res) :: st.cache, st.calls + 1⟩)

/-- One entry of the deferred-callback registry: the identity of the
callback (modelled as a token), its positional and keyword arguments. -/
structure AtexitEntry where
  callback : String
  args : List Json
  kwargs : List (String × Json)

/-- Embeds `atexit(callback, *args, **kwargs)` of
`src/charms/tool/utils.py`: `_atexit.append((callback, args, kwargs))`.
Modelled from the spec: the `_atexit` list itself is declared outside
`src/` (only the appending function is in the source); per the spec it
is a process-wide ordered sequence of `(callback, positionalArgs,
keywordArgs)` triples.  Python returns `None`; the state-passing model
returns the new registry. -/
def atexitRegister (reg : List AtexitEntry) (cb : String)
    (args : List Json) (kwargs : List (String × Json)) : List AtexitEntry :=
  reg ++ [⟨cb, args, kwargs⟩]

/-- Result of `config(scope)` in `src/charms/model/unit.py`: with a
scope, the raw JSON value; without, a `Config` instance. -/
inductive ConfigResult where
  | raw : Json → ConfigResult
  | state : Config → ConfigResult

/-- Embeds the body of `config(scope=None)` from
`src/charms/model/unit.py`.  The External Config Source is the
`config-get` subprocess; `source scope` is its output after
`json.loads`, with `none` standing for output that is not valid JSON
(`json.loads` raises `ValueError`, which the `except ValueError`
handler turns into a returned `None`).  With a scope the decoded value
is returned raw; without one it is fed to `Config(config_data)` —
a non-object there would make `dict.__init__` raise an error that the
`ValueError` handler does not catch for the shapes `config-get` can
emit, rendered as `Except.error ()`; no claim exercises that case. -/
def configImpl (env : Env) (source : Option String → Option Json)
    (scope : Option String) : Except Unit (Option ConfigResult) :=
  match source scope with
  | none => Except.ok none
  | some j =>
    match scope with
    | some _ => Except.ok (some (ConfigResult.raw j))
    | none =>
      match j with
      | Json.obj fields =>
          Except.ok (some (ConfigResult.state (Config.init env fields)))
      | _ => Except.error ()

/-- Heap node for the object-identity model: the structured values held
by CPython objects, with children referred to by address.  Addresses
are only meaningful relative to a `Heap`. -/
inductive Node where
  | null : Node
  | bool : Bool → Node
  | num : Int → Node
  | str : String → Node
  | arr : List Nat → Node
  | obj : List (String × Nat) → Node
deriving DecidableEq, Repr

/-- A growing heap of JSON-shaped objects: `next` is the next fresh
address, `mem` the allocated nodes. -/
structure Heap where
  next : Nat
  mem : List (Nat × Node)
deriving DecidableEq, Repr

def Heap.lookup (h : Heap) (a : Nat) : Option Node :=
  alookup h.mem a

/-- Allocate one node at a fresh address. -/
def Heap.push (h : Heap) (nd : Node) : Heap × Nat :=
  (⟨h.next + 1, (h.next, nd) :: h.mem⟩, h.next)

/-- In-place mutation of the object at address `a` (models Python
mutators such as `list.append` or `dict.__setitem__` on a nested
value: the object's identity is unchanged, its content replaced). -/
def Heap.mutate (h : Heap) (a : Nat) (nd : Node) : Heap :=
  ⟨h.next, h.mem.map (fun p => if p.1 = a then (p.1, nd) else p)⟩

mutual

/-- Allocation of a decoded JSON tree into the heap, as `json.loads` /
`json.load` / `copy.deepcopy` do: children first, every node at a fresh
address. -/
def allocJson : Heap → Json → Heap × Nat
  | h, Json.null => h.push Node.null
  | h, Json.bool b => h.push (Node.bool b)
  | h, Json.num n => h.push (Node.num n)
  | h, Json.str s => h.push (Node.str s)
  | h, Json.arr es =>
      let r := allocList h es
      r.1.push (Node.arr r.2)
  | h, Json.obj fs =>
      let r := allocFields h fs
      r.1.push (Node.obj r.2)
termination_by h j => sizeOf j

def allocList : Heap → List Json → Heap × List Nat
  | h, [] => (h, [])
  | h, j :: js =>
      let r1 := allocJson h j
      let r2 := allocList r1.1 js
      (r2.1, r1.2 :: r2.2)
termination_by h js => sizeOf js

def allocFields : Heap → List (String × Json) → Heap × List (String × Nat)
  | h, [] => (h, [])
  | h, (k, j) :: fs =>
      let r1 := allocJson h j
      let r2 := allocFields r1.1 fs
      (r2.1, (k, r1.2) :: r2.2)
termination_by h fs => sizeOf fs

end

mutual

/-- Read the pure JSON value of the object at address `a`; `fuel`
bounds the depth (heap data produced by `allocJson` is tree-shaped, so
enough fuel always exists).  The contents of a loaded snapshot are, by
definition, the `readback` of its value addresses. -/
def readback : Nat → Heap → Nat → Option Json
  | 0, _, _ => none
  | fuel + 1, h, a =>
    match h.lookup a with
    | none => none
    | some Node.null => some Json.null
    | some (Node.bool b) => some (Json.bool b)
    | some (Node.num n) => some (Json.num n)
    | some (Node.str s) => some (Json.str s)
    | some (Node.arr as) => (readbackList fuel h as).map Json.arr
    | some (Node.obj fas) => (readbackFields fuel h fas).map Json.obj
termination_by fuel h a => (fuel, 0)

def readbackList : Nat → Heap → List Nat → Option (List Json)
  | _, _, [] => some []
  | fuel, h, a :: as =>
    match readback fuel h a, readbackList fuel h as with
    | some j, some js => some (j :: js)
    | _, _ => none
termination_by fuel h as => (fuel, as.length + 1)

def readbackFields : Nat → Heap → List (String × Nat) →
    Option (List (String × Json))
  | _, _, [] => some []
  | fuel, h, (k, a) :: fas =>
    match readback fuel h a, readbackFields fuel h fas with
    | some j, some js => some ((k, j) :: js)
    | _, _ => none
termination_by fuel h fas => (fuel, fas.length + 1)

end

/-- Addresses directly held by a node. -/
def childAddrs : Node → List Nat
  | Node.arr as => as
  | Node.obj fas => fas.map Prod.snd
  | _ => []

/-- Reachability by following object references in the heap. -/
inductive Reaches (h : Heap) : Nat → Nat → Prop where
  | refl (a : Nat) : Reaches h a a
  | step (a b c : Nat) (nd : Node) : h.lookup a = some nd →
      b ∈ childAddrs nd → Reaches h b c → Reaches h a c

/-- State of a `Config` instance at the object level, after
`load_previous` has run: the heap, the inherited dict (`current`) and
`_prev_dict` (`prev`) as maps from key to value address. -/
structure HConfig where
  heap : Heap
  current : List (String × Nat)
  prev : List (String × Nat)

def emptyHeap : Heap := ⟨0, []⟩

/-- Object-level construction of a `Config` as performed by `config()`
in `src/charms/model/unit.py` followed by `Config.__init__` and
`Config.load_previous` in `src/charms/tool/utils.py`: `json.loads`
allocates the current invocation's values; `dict.__init__` copies the
key-to-address bindings; `json.load(f)` allocates `_prev_dict` afresh;
`copy.deepcopy(self._prev_dict)` allocates a structurally equal copy
out of entirely fresh nodes, and the merge loop `if k not in self:
self[k] = v` links only the copied addresses of the missing keys. -/
def mkHConfig (curJson prevJson : List (String × Json)) : HConfig :=
  let r1 := allocFields emptyHeap curJson
  let r2 := allocFields r1.1 prevJson
  let r3 := allocFields r2.1 prevJson
  let current := r3.2.foldl
    (fun cur kv => match alookup cur kv.1 with
      | some _ => cur
      | none => cur ++ [kv])
    r1.2
  ⟨r3.1, current, r2.2⟩

/-- Boundary of the current-values region in `mkHConfig`'s heap. -/
def curBound (curJson : List (String × Json)) : Nat :=
  (allocFields emptyHeap curJson).1.next

/-- Boundary of the `_prev_dict` region in `mkHConfig`'s heap. -/
def prevBound (curJson prevJson : List (String × Json)) : Nat :=
  (allocFields (allocFields emptyHeap curJson).1 prevJson).1.next

/-- Dict-level assignment `config[k] = v` at the object level: only the
inherited dict's bindings change; the heap and `_prev_dict` do not. -/
def HConfig.set (c : HConfig) (k : String) (a : Nat) : HConfig :=
  { c with current := dictSet c.current k a }

/-- A heap region `[lo, hi)` is closed: every address in it holds a
node whose children lie inside the region, strictly below their parent
(allocation is children-first). -/
def RegionInv (h : Heap) (lo hi : Nat) : Prop :=
  ∀ x, lo ≤ x → x < hi → ∃ nd, h.lookup x = some nd ∧
    ∀ c ∈ childAddrs nd, lo ≤ c ∧ c < x

theorem alookup_dictSet {β : Type} (d : List (String × β)) (k k2 : String)
    (v : β) :
    alookup (dictSet d k v) k2 = if k2 = k then some v else alookup d k2 := by
  induction d with
  | nil =>
      by_cases h : k2 = k
      · subst h; simp [dictSet, alookup]
      · simp [dictSet, alookup, h, Ne.symm h]
  | cons p rest ih =>
      obtain ⟨k1, v1⟩ := p
      by_cases h1 : k1 = k
      · subst h1
        by_cases h : k2 = k1
        · subst h; simp [dictSet, alookup]
        · simp [dictSet, alookup, h, Ne.symm h]
      · by_cases h : k1 = k2
        · subst h
          simp [dictSet, alookup, h1, Ne.symm h1]
        · simp [dictSet, alookup, h1, h, ih]

theorem alookup_mergePrev (prev data : List (String × Json)) (k : String) :
    alookup (mergePrev data prev) k =
      match alookup data k with
      | some v => some v
      | none => alookup prev k := by
  induction prev generalizing data with
  | nil =>
      simp only [mergePrev, List.foldl_nil]
      cases alookup data k <;> simp [alookup]
  | cons p rest ih =>
      obtain ⟨k1, v1⟩ := p
      have step : mergePrev data ((k1, v1) :: rest) =
          mergePrev (match alookup data k1 with
            | some _ => data
            | none => dictSet data k1 v1) rest := by
        simp [mergePrev, List.foldl_cons]
      rw [step, ih]
      by_cases hk : k1 = k
      · subst hk
        cases hd : alookup data k1 with
        | some v => simp [hd, alookup]
        | none => simp [hd, alookup_dictSet, alookup]
      · have hk2 : ¬ k = k1 := Ne.symm hk
        cases hd : alookup data k with
        | some v =>
            cases hd1 : alookup data k1 with
            | some v2 => simp [hd, alookup, hk, hk2]
            | none => simp [alookup_dictSet, hk, hk2, hd, alookup]
        | none =>
            cases hd1 : alookup data k1 with
            | some v2 => simp [hd, alookup, hk, hk2]
            | none => simp [alookup_dictSet, hk, hk2, hd, alookup]

/-- C1: for every `Config` instance and key `k`, if the previous
snapshot is absent (`_prev_dict is None`) then `changed(k)` is `True`;
otherwise `changed(k)` is `True` iff the previous snapshot's value for
`k` differs (Python `!=`) from the current mapping's value for `k`,
a key missing from either side reading as `None`/null rather than
raising. -/
theorem C1_changed_semantics (c : Config) (k : String) :
    (c._prev_dict = none → c.changed k = true) ∧
    (∀ prev, c._prev_dict = some prev →
      c.changed k = !(pyEq (pyGet prev k) (pyGet c.data k))) := by
  refine ⟨fun h => ?_, fun prev h => ?_⟩
  · simp [Config.changed, h]
  · cases prev with
    | nil => simp [Config.changed, Config.previous, h, pyGet, alookup]
    | cons p rest => simp [Config.changed, Config.previous, h, pyGet]

/-- Witness for C1 at a concrete instance with a loaded snapshot. -/
theorem C1_changed_semantics_witness :
    Config.changed
        ⟨[("a", Json.num 2)], true, some [("a", Json.num 1)], "p"⟩ "a" =
      !(pyEq (pyGet [("a", Json.num 1)] "a") (pyGet [("a", Json.num 2)] "a")) :=
  (C1_changed_semantics
      ⟨[("a", Json.num 2)], true, some [("a", Json.num 1)], "p"⟩ "a").2
    [("a", Json.num 1)] rfl

/-- C2: when a previous snapshot exists at the persistence path,
construction yields a current mapping equal (as a map) to the union of
the current invocation's data and the previous snapshot, current values
winning on conflicts; and in the concrete scenario of snapshot
`(foo = bar)` with current data `(foo = baz, new = 1)` the instance has
exactly that current data, `changed(foo) = changed(new) = True`,
`previous(foo) = bar` and `previous(new) = null`. -/
theorem C2_union_and_scenario :
    (∀ (env : Env) (args prev : List (String × Json)) (k : String),
      alookup env.files (os_path_join env.charm_dir CONFIG_FILE_NAME) =
          some prev →
      alookup (Config.init env args).data k =
        match alookup (dictOfPairs args) k with
        | some v => some v
        | none => alookup prev k) ∧
    ((Config.init
        ⟨"/ch", [("/ch/.juju-persistent-config", [("foo", Json.str "bar")])]⟩
        [("foo", Json.str "baz"), ("new", Json.num 1)]).data =
          [("foo", Json.str "baz"), ("new", Json.num 1)] ∧
      (Config.init
        ⟨"/ch", [("/ch/.juju-persistent-config", [("foo", Json.str "bar")])]⟩
        [("foo", Json.str "baz"), ("new", Json.num 1)]).changed "foo" = true ∧
      (Config.init
        ⟨"/ch", [("/ch/.juju-persistent-config", [("foo", Json.str "bar")])]⟩
        [("foo", Json.str "baz"), ("new", Json.num 1)]).previous "foo" =
          Json.str "bar" ∧
      (Config.init
        ⟨"/ch", [("/ch/.juju-persistent-config", [("foo", Json.str "bar")])]⟩
        [("foo", Json.str "baz"), ("new", Json.num 1)]).changed "new" = true ∧
      (Config.init
        ⟨"/ch", [("/ch/.juju-persistent-config", [("foo", Json.str "bar")])]⟩
        [("foo", Json.str "baz"), ("new", Json.num 1)]).previous "new" =
          Json.null) := by
  constructor
  · intro env args prev k h
    have hinit : (Config.init env args).data =
        mergePrev (dictOfPairs args) prev := by
      simp [Config.init, Config.load_previous, h]
    rw [hinit, alookup_mergePrev]
  · refine ⟨?_, ?_, ?_, ?_, ?_⟩
    · rfl
    · simp [Config.init, Config.load_previous, Config.changed,
        Config.previous, pyGet, alookup, dictOfPairs, dictSet, mergePrev,
        pyEq, os_path_join, CONFIG_FILE_NAME]
    · rfl
    · simp [Config.init, Config.load_previous, Config.changed,
        Config.previous, pyGet, alookup, dictOfPairs, dictSet, mergePrev,
        pyEq, os_path_join, CONFIG_FILE_NAME]
    · rfl

/-- Witness for C2's union clause at the scenario instance. -/
theorem C2_union_witness :
    alookup (Config.init
        ⟨"/ch", [("/ch/.juju-persistent-config", [("foo", Json.str "bar")])]⟩
        [("foo", Json.str "baz"), ("new", Json.num 1)]).data "foo" =
      match alookup (dictOfPairs [("foo", Json.str "baz"),
          ("new", Json.num 1)]) "foo" with
      | some v => some v
      | none => alookup [("foo", Json.str "bar")] "foo" :=
  C2_union_and_scenario.1
    ⟨"/ch", [("/ch/.juju-persistent-config", [("foo", Json.str "bar")])]⟩
    [("foo", Json.str "baz"), ("new", Json.num 1)]
    [("foo", Json.str "bar")] "foo" rfl

/-- C6 counterexample: with a snapshot file present at the persistence
path, `_prev_dict` is already populated immediately after construction,
before any `changed()` or `previous()` call — the load is eager, not
lazy. -/
theorem C6_counterexample :
    (Config.init
        ⟨"/ch", [("/ch/.juju-persistent-config", [("a", Json.num 1)])]⟩
        [])._prev_dict = some [("a", Json.num 1)] := rfl

/-- C6 amended: the previous snapshot is loaded eagerly, during
construction and exactly once, iff the persistence path exists at
construction time; when the path does not exist, `_prev_dict` stays
`None` for the instance (`changed`/`previous` are pure observers and
never trigger a load or a retry). -/
theorem C6_amended_eager_load (env : Env) (args : List (String × Json)) :
    (Config.init env args)._prev_dict =
      alookup env.files (os_path_join env.charm_dir CONFIG_FILE_NAME) := by
  cases h : alookup env.files (os_path_join env.charm_dir CONFIG_FILE_NAME) with
  | none => simp [Config.init, h]
  | some prev => simp [Config.init, Config.load_previous, h]

/-- C7 counterexample: calling `load_previous` with an explicit path
argument rebinds `self.path` after construction, so the persistence
path is not immutable under every operation on the instance. -/
theorem C7_counterexample :
    ((Config.init ⟨"/nf", []⟩ []).load_previous
        ⟨"/nf", [("/elsewhere", [("a", Json.num 1)])]⟩
        (some "/elsewhere")).1.path = "/elsewhere" ∧
    (Config.init ⟨"/nf", []⟩ []).path = "/nf/.juju-persistent-config" ∧
    ("/elsewhere" : String) ≠ "/nf/.juju-persistent-config" := by
  refine ⟨rfl, rfl, by decide⟩

/-- C7 amended: the persistence path is resolved once at construction
from the process-wide root directory plus the fixed filename, and it is
changed only by an explicit `load_previous` call carrying a non-empty
path argument; construction, key assignment and `load_previous` with no
(or an empty) path argument leave it unchanged. -/
theorem C7_amended_path (env env2 : Env) (args : List (String × Json))
    (c : Config) (k : String) (v : Json) (p : String) :
    (Config.init env args).path =
      os_path_join env.charm_dir CONFIG_FILE_NAME ∧
    (Config.set c k v).path = c.path ∧
    (c.load_previous env2 none).1.path = c.path ∧
    (c.load_previous env2 (some "")).1.path = c.path ∧
    (p ≠ "" → (c.load_previous env2 (some p)).1.path = p) := by
  refine ⟨?_, rfl, ?_, ?_, fun hp => ?_⟩
  · cases h : alookup env.files (os_path_join env.charm_dir CONFIG_FILE_NAME)
      with
    | none => simp [Config.init, h]
    | some prev => simp [Config.init, Config.load_previous, h]
  · cases h : alookup env2.files c.path with
    | none => simp [Config.load_previous, h]
    | some prev => simp [Config.load_previous, h]
  · cases h : alookup env2.files c.path with
    | none => simp [Config.load_previous, h]
    | some prev => simp [Config.load_previous, h]
  · cases h : alookup env2.files p with
    | none => simp [Config.load_previous, hp, h]
    | some prev => simp [Config.load_previous, hp, h]

/-- Witness for C7's amended statement, exercising the explicit-path
clause at a concrete instance. -/
theorem C7_amended_path_witness :
    ((⟨[], true, none, "/orig"⟩ : Config).load_previous ⟨"/e", []⟩
        (some "/q")).1.path = "/q" :=
  (C7_amended_path ⟨"/e", []⟩ ⟨"/e", []⟩ [] ⟨[], true, none, "/orig"⟩
      "k" Json.null "/q").2.2.2.2 (by decide)

/-- C4: `atexit(callback, *args, **kwargs)` appends the triple
`(callback, args, kwargs)` to the registry: a total operation of the
model (no exception path), it preserves every existing entry in place
and grows the registry by exactly one — in particular a duplicate
registration is appended again, independently, since the statement
holds for every starting registry including one already containing the
same triple. -/
theorem C4_atexit_append (reg : List AtexitEntry) (cb : String)
    (args : List Json) (kwargs : List (String × Json)) :
    (atexitRegister reg cb args kwargs).length = reg.length + 1 ∧
    (atexitRegister reg cb args kwargs).take reg.length = reg ∧
    (atexitRegister reg cb args kwargs).getLast? = some ⟨cb, args, kwargs⟩ := by
  refine ⟨by simp [atexitRegister], ?_, ?_⟩
  · simp [atexitRegister, List.take_left]
  · simp [atexitRegister]

/-- C9: whenever the External Config Source returns content that is not
valid JSON (`json.loads` raises `ValueError`), `config(scope)` returns
`None` rather than propagating an exception — with a scope argument
(raw value lookup) and without one (full `Config` construction)
alike. -/
theorem C9_parse_failure_returns_null (env : Env)
    (source : Option String → Option Json) (scope : Option String)
    (h : source scope = none) :
    configImpl env source scope = Except.ok none := by
  simp [configImpl, h]

/-- Witness for C9 at a concrete always-invalid source, in both the
scoped and the scopeless form. -/
theorem C9_parse_failure_returns_null_witness :
    configImpl ⟨"/ch", []⟩ (fun _ => none) none = Except.ok none ∧
    configImpl ⟨"/ch", []⟩ (fun _ => none) (some "key") = Except.ok none :=
  ⟨C9_parse_failure_returns_null ⟨"/ch", []⟩ (fun _ => none) none rfl,
   C9_parse_failure_returns_null ⟨"/ch", []⟩ (fun _ => none) (some "key") rfl⟩

theorem cachedWrapper_preserves {E V : Type} (fr : String)
    (g : Nat → Except E V) (args : List Json)
    (kw : List (String × Json)) (st : CacheSt V) (key : String) (v : V)
    (res : V × CacheSt V)
    (hst : alookup st.cache key = some v)
    (hres : cachedWrapper fr g args kw st = Except.ok res) :
    alookup res.2.cache key = some v := by
  by_cases hk : serializeKey fr args kw = key
  · rw [cachedWrapper, hk, hst] at hres
    cases hres
    exact hst
  · rw [cachedWrapper] at hres
    cases hl : alookup st.cache (serializeKey fr args kw) with
    | some r =>
        rw [hl] at hres
        cases hres
        exact hst
    | none =>
        rw [hl] at hres
        cases hg : g st.calls with
        | error e => rw [hg] at hres; cases hres
        | ok r =>
            rw [hg] at hres
            cases hres
            simp [alookup, hk]
            exact hst

/-- C3: a call through the `cached` wrapper whose key already has a
cache entry returns the stored value with the cache and the
underlying-invocation count unchanged (the wrapped function is not
re-invoked); starting instead from a key miss, two consecutive calls
with identical arguments return the very entry stored by the first —
the identical `Config` instance when the wrapped function is `config` —
and the underlying function runs exactly once. -/
theorem C3_memoization {E V : Type} (funcRepr : String)
    (f : Nat → Except E V) (args : List Json)
    (kwargs : List (String × Json)) (st : CacheSt V) :
    (∀ v, alookup st.cache (serializeKey funcRepr args kwargs) = some v →
      cachedWrapper funcRepr f args kwargs st = Except.ok (v, st)) ∧
    (∀ v1, alookup st.cache (serializeKey funcRepr args kwargs) = none →
      f st.calls = Except.ok v1 →
      cachedWrapper funcRepr f args kwargs st =
        Except.ok (v1,
          ⟨(serializeKey funcRepr args kwargs, v1) :: st.cache,
            st.calls + 1⟩) ∧
      cachedWrapper funcRepr f args kwargs
          ⟨(serializeKey funcRepr args kwargs, v1) :: st.cache,
            st.calls + 1⟩ =
        Except.ok (v1,
          ⟨(serializeKey funcRepr args kwargs, v1) :: st.cache,
            st.calls + 1⟩)) := by
  constructor
  · intro v hv
    rw [cachedWrapper, hv]
  · intro v1 hmiss hf
    constructor
    · rw [cachedWrapper, hmiss, hf]
    · rw [cachedWrapper]
      simp [alookup]

/-- Witness for C3: a memoized `config()` call (empty cache) followed
by a repeat call returns the same stored `Config`-carrying result with
one underlying invocation in total. -/
theorem C3_memoization_witness :
    cachedWrapper "config"
        (fun _ => configImpl ⟨"/ch", []⟩
          (fun _ => some (Json.obj [("foo", Json.num 7)])) none)
        [] [] ⟨[], 0⟩ =
      Except.ok
        (some (ConfigResult.state (Config.init ⟨"/ch", []⟩
            [("foo", Json.num 7)])),
          ⟨[(serializeKey "config" [] [],
            some (ConfigResult.state (Config.init ⟨"/ch", []⟩
              [("foo", Json.num 7)])))], 1⟩) ∧
    cachedWrapper "config"
        (fun _ => configImpl ⟨"/ch", []⟩
          (fun _ => some (Json.obj [("foo", Json.num 7)])) none)
        [] []
        ⟨[(serializeKey "config" [] [],
          some (ConfigResult.state (Config.init ⟨"/ch", []⟩
            [("foo", Json.num 7)])))], 1⟩ =
      Except.ok
        (some (ConfigResult.state (Config.init ⟨"/ch", []⟩
            [("foo", Json.num 7)])),
          ⟨[(serializeKey "config" [] [],
            some (ConfigResult.state (Config.init ⟨"/ch", []⟩
              [("foo", Json.num 7)])))], 1⟩) :=
  (C3_memoization "config"
      (fun _ => configImpl ⟨"/ch", []⟩
        (fun _ => some (Json.obj [("foo", Json.num 7)])) none)
      [] [] ⟨[], 0⟩).2
    (some (ConfigResult.state (Config.init ⟨"/ch", []⟩
      [("foo", Json.num 7)])))
    rfl rfl

/-- C5 counterexample: two keyword mappings with the same bindings in a
different insertion order (a permutation, with equal lookups on every
key) serialize to different cache keys, and with the first key cached a
call carrying the reordered keywords misses and re-invokes the
underlying function (the invocation count reaches 2). -/
theorem C5_counterexample :
    List.Perm [("a", Json.num 1), ("b", Json.num 2)]
      [("b", Json.num 2), ("a", Json.num 1)] ∧
    alookup [("a", Json.num 1), ("b", Json.num 2)] "a" =
        alookup [("b", Json.num 2), ("a", Json.num 1)] "a" ∧
    alookup [("a", Json.num 1), ("b", Json.num 2)] "b" =
        alookup [("b", Json.num 2), ("a", Json.num 1)] "b" ∧
    serializeKey "f" [] [("a", Json.num 1), ("b", Json.num 2)] ≠
      serializeKey "f" [] [("b", Json.num 2), ("a", Json.num 1)] ∧
    cachedWrapper "f" (fun _ => (Except.ok Json.null : Except Unit Json)) []
        [("b", Json.num 2), ("a", Json.num 1)]
        ⟨[(serializeKey "f" [] [("a", Json.num 1), ("b", Json.num 2)],
          Json.null)], 1⟩ =
      Except.ok (Json.null,
        ⟨[(serializeKey "f" [] [("b", Json.num 2), ("a", Json.num 1)],
            Json.null),
          (serializeKey "f" [] [("a", Json.num 1), ("b", Json.num 2)],
            Json.null)], 2⟩) := by
  have hne0 : serializeKey "f" [] [("a", Json.num 1), ("b", Json.num 2)] ≠
      serializeKey "f" [] [("b", Json.num 2), ("a", Json.num 1)] := by
    simp only [serializeKey, reprArgsTuple, reprJsonFields, reprJson]
    decide
  refine ⟨List.Perm.swap _ _ _, rfl, rfl, hne0, ?_⟩
  rw [cachedWrapper]
  simp [alookup, hne0]

/-- C5 amended: the cache key is a deterministic function of the
function identity, the positional arguments and the keyword mapping in
its insertion order: whenever two calls' keyword mappings serialize
identically a cached first call makes the second a hit; but keyword
mappings holding the same bindings in a different insertion order may
serialize differently, in which case the second call is a miss that
stores a new key and re-invokes the underlying function. -/
theorem C5_amended_key_order (fr : String) {E V : Type}
    (f : Nat → Except E V) (args : List Json)
    (kw1 kw2 : List (String × Json)) (st : CacheSt V) :
    (∀ v, serializeKey fr args kw1 = serializeKey fr args kw2 →
      alookup st.cache (serializeKey fr args kw1) = some v →
      cachedWrapper fr f args kw2 st = Except.ok (v, st)) ∧
    (∀ v2, serializeKey fr args kw1 ≠ serializeKey fr args kw2 →
      alookup st.cache (serializeKey fr args kw2) = none →
      f st.calls = Except.ok v2 →
      cachedWrapper fr f args kw2 st =
        Except.ok (v2, ⟨(serializeKey fr args kw2, v2) :: st.cache,
          st.calls + 1⟩)) := by
  constructor
  · intro v heq hv
    rw [cachedWrapper, ← heq, hv]
  · intro v2 _ hmiss hf
    rw [cachedWrapper, hmiss, hf]

/-- Witness for C5's amended statement: a hit under an identical
serialization and a miss under the reordered keyword mapping of the
counterexample. -/
theorem C5_amended_key_order_witness :
    cachedWrapper "f" (fun _ => (Except.ok Json.null : Except Unit Json)) []
        [("a", Json.num 1), ("b", Json.num 2)]
        ⟨[(serializeKey "f" [] [("a", Json.num 1), ("b", Json.num 2)],
          Json.null)], 1⟩ =
      Except.ok (Json.null,
        ⟨[(serializeKey "f" [] [("a", Json.num 1), ("b", Json.num 2)],
          Json.null)], 1⟩) ∧
    cachedWrapper "f" (fun _ => (Except.ok Json.null : Except Unit Json)) []
        [("b", Json.num 2), ("a", Json.num 1)]
        ⟨[], 0⟩ =
      Except.ok (Json.null,
        ⟨[(serializeKey "f" [] [("b", Json.num 2), ("a", Json.num 1)],
          Json.null)], 1⟩) :=
  ⟨(C5_amended_key_order "f"
      (fun _ => (Except.ok Json.null : Except Unit Json)) []
      [("a", Json.num 1), ("b", Json.num 2)]
      [("a", Json.num 1), ("b", Json.num 2)]
      ⟨[(serializeKey "f" [] [("a", Json.num 1), ("b", Json.num 2)],
        Json.null)], 1⟩).1 Json.null rfl (by simp [alookup]),
   (C5_amended_key_order "f"
      (fun _ => (Except.ok Json.null : Except Unit Json)) []
      [("a", Json.num 1), ("b", Json.num 2)]
      [("b", Json.num 2), ("a", Json.num 1)]
      ⟨[], 0⟩).2 Json.null
      (by simp only [serializeKey, reprArgsTuple, reprJsonFields, reprJson]
          decide)
      rfl rfl⟩

/-- C10: a `None` result is cached like any other value: when a call
through the wrapper misses and the underlying fetch returns `None` (as
`config` does on a parse failure), `None` is stored under the key, and
every later call with the same key returns the stored `None` without
invoking anything — even a function that would now succeed — and the
stored `None` also survives any successful call made under other
keys. -/
theorem C10_null_result_is_cached {E : Type} (fr : String)
    (f : Nat → Except E (Option ConfigResult)) (args : List Json)
    (kwargs : List (String × Json)) (st : CacheSt (Option ConfigResult))
    (hmiss : alookup st.cache (serializeKey fr args kwargs) = none)
    (hnull : f st.calls = Except.ok none) :
    cachedWrapper fr f args kwargs st =
      Except.ok (none,
        ⟨(serializeKey fr args kwargs, none) :: st.cache, st.calls + 1⟩) ∧
    (∀ g : Nat → Except E (Option ConfigResult),
      cachedWrapper fr g args kwargs
          ⟨(serializeKey fr args kwargs, none) :: st.cache, st.calls + 1⟩ =
        Except.ok (none,
          ⟨(serializeKey fr args kwargs, none) :: st.cache,
            st.calls + 1⟩)) ∧
    (∀ (fr2 : String) (args2 : List Json) (kw2 : List (String × Json))
        (g : Nat → Except E (Option ConfigResult))
        (res : Option ConfigResult × CacheSt (Option ConfigResult)),
      cachedWrapper fr2 g args2 kw2
          ⟨(serializeKey fr args kwargs, none) :: st.cache, st.calls + 1⟩ =
        Except.ok res →
      alookup res.2.cache (serializeKey fr args kwargs) = some none) := by
  refine ⟨?_, fun g => ?_, fun fr2 args2 kw2 g res hres => ?_⟩
  · rw [cachedWrapper, hmiss, hnull]
  · rw [cachedWrapper]
    simp [alookup]
  · exact cachedWrapper_preserves fr2 g args2 kw2
      ⟨(serializeKey fr args kwargs, none) :: st.cache, st.calls + 1⟩
      (serializeKey fr args kwargs) none res (by simp [alookup]) hres

/-- Witness for C10: a parse-failing `config()` call caches `None`; the
repeat call returns the cached `None` although the source has become
valid. -/
theorem C10_null_result_is_cached_witness :
    cachedWrapper "config"
        (fun _ => configImpl ⟨"/ch", []⟩ (fun _ => none) none) [] []
        ⟨[], 0⟩ =
      Except.ok (none, ⟨[(serializeKey "config" [] [], none)], 1⟩) ∧
    cachedWrapper "config"
        (fun _ => configImpl ⟨"/ch", []⟩
          (fun _ => some (Json.obj [("foo", Json.num 7)])) none) [] []
        ⟨[(serializeKey "config" [] [], none)], 1⟩ =
      Except.ok (none, ⟨[(serializeKey "config" [] [], none)], 1⟩) :=
  have h := C10_null_result_is_cached "config"
    (fun _ => configImpl ⟨"/ch", []⟩ (fun _ => none) none) [] []
    ⟨[], 0⟩ rfl rfl
  ⟨h.1, h.2.1 (fun _ => configImpl ⟨"/ch", []⟩
    (fun _ => some (Json.obj [("foo", Json.num 7)])) none)⟩

theorem Heap.push_lookup_ne (h : Heap) (nd : Node) (a : Nat)
    (ha : a ≠ h.next) : (h.push nd).1.lookup a = h.lookup a := by
  simp [Heap.push, Heap.lookup, alookup, Ne.symm ha]

theorem Heap.push_lookup_self (h : Heap) (nd : Node) :
    (h.push nd).1.lookup h.next = some nd := by
  simp [Heap.push, Heap.lookup, alookup]

theorem alookup_map_mutate (l : List (Nat × Node)) (a : Nat) (nd : Node)
    (x : Nat) (hx : x ≠ a) :
    alookup (l.map (fun p => if p.1 = a then (p.1, nd) else p)) x =
      alookup l x := by
  induction l with
  | nil => rfl
  | cons p rest ih =>
      obtain ⟨k, v⟩ := p
      rw [List.map_cons]
      dsimp only
      by_cases hk : k = a
      · have h1 : ¬ k = x := fun h => hx (h ▸ hk)
        rw [if_pos hk]
        simp only [alookup, if_neg h1]
        exact ih
      · rw [if_neg hk]
        simp only [alookup]
        by_cases hkx : k = x
        · rw [if_pos hkx, if_pos hkx]
        · rw [if_neg hkx, if_neg hkx]
          exact ih

theorem Heap.mutate_lookup_ne (h : Heap) (a : Nat) (nd : Node) (x : Nat)
    (hx : x ≠ a) : (h.mutate a nd).lookup x = h.lookup x := by
  simp [Heap.mutate, Heap.lookup, alookup_map_mutate h.mem a nd x hx]

mutual

theorem allocJson_next_mono (h : Heap) (j : Json) :
    h.next ≤ (allocJson h j).1.next := by
  cases j with
  | null => simp [allocJson, Heap.push]
  | bool b => simp [allocJson, Heap.push]
  | num n => simp [allocJson, Heap.push]
  | str s => simp [allocJson, Heap.push]
  | arr es =>
      have h1 := allocList_next_mono h es
      simp only [allocJson, Heap.push]
      omega
  | obj fs =>
      have h1 := allocFields_next_mono h fs
      simp only [allocJson, Heap.push]
      omega
termination_by sizeOf j

theorem allocList_next_mono (h : Heap) (js : List Json) :
    h.next ≤ (allocList h js).1.next := by
  cases js with
  | nil => simp [allocList]
  | cons j rest =>
      have h1 := allocJson_next_mono h j
      have h2 := allocList_next_mono (allocJson h j).1 rest
      simp only [allocList]
      omega
termination_by sizeOf js

theorem allocFields_next_mono (h : Heap) (fs : List (String × Json)) :
    h.next ≤ (allocFields h fs).1.next := by
  cases fs with
  | nil => simp [allocFields]
  | cons p rest =>
      obtain ⟨k, j⟩ := p
      have h1 := allocJson_next_mono h j
      have h2 := allocFields_next_mono (allocJson h j).1 rest
      simp only [allocFields]
      omega
termination_by sizeOf fs

end

mutual

theorem allocJson_root_bounds (h : Heap) (j : Json) :
    h.next ≤ (allocJson h j).2 ∧ (allocJson h j).2 < (allocJson h j).1.next := by
  cases j with
  | null => simp only [allocJson, Heap.push]; omega
  | bool b => simp only [allocJson, Heap.push]; omega
  | num n => simp only [allocJson, Heap.push]; omega
  | str s => simp only [allocJson, Heap.push]; omega
  | arr es =>
      have h1 := allocList_next_mono h es
      simp only [allocJson, Heap.push]
      omega
  | obj fs =>
      have h1 := allocFields_next_mono h fs
      simp only [allocJson, Heap.push]
      omega

theorem allocList_root_bounds (h : Heap) (js : List Json) :
    ∀ a ∈ (allocList h js).2, h.next ≤ a ∧ a < (allocList h js).1.next := by
  cases js with
  | nil => simp [allocList]
  | cons j rest =>
      intro a ha
      simp only [allocList] at ha ⊢
      rcases List.mem_cons.mp ha with heq | hmem
      · subst heq
        have h1 := allocJson_root_bounds h j
        have h2 := allocList_next_mono (allocJson h j).1 rest
        omega
      · have h1 := allocList_root_bounds (allocJson h j).1 rest a hmem
        have h2 := allocJson_next_mono h j
        omega
termination_by sizeOf js

theorem allocFields_root_bounds (h : Heap) (fs : List (String × Json)) :
    ∀ k a, (k, a) ∈ (allocFields h fs).2 →
      h.next ≤ a ∧ a < (allocFields h fs).1.next := by
  cases fs with
  | nil => simp [allocFields]
  | cons p rest =>
      obtain ⟨k1, j⟩ := p
      intro k a ha
      simp only [allocFields] at ha ⊢
      rcases List.mem_cons.mp ha with heq | hmem
      · cases heq
        have h1 := allocJson_root_bounds h j
        have h2 := allocFields_next_mono (allocJson h j).1 rest
        omega
      · have h1 := allocFields_root_bounds (allocJson h j).1 rest k a hmem
        have h2 := allocJson_next_mono h j
        omega
termination_by sizeOf fs

end

mutual

theorem allocJson_preserves (h : Heap) (j : Json) (x : Nat)
    (hx : x < h.next) : (allocJson h j).1.lookup x = h.lookup x := by
  cases j with
  | null => simp only [allocJson]; exact Heap.push_lookup_ne h _ x (by omega)
  | bool b => simp only [allocJson]; exact Heap.push_lookup_ne h _ x (by omega)
  | num n => simp only [allocJson]; exact Heap.push_lookup_ne h _ x (by omega)
  | str s => simp only [allocJson]; exact Heap.push_lookup_ne h _ x (by omega)
  | arr es =>
      have h1 := allocList_next_mono h es
      have h2 := allocList_preserves h es x hx
      simp only [allocJson]
      rw [Heap.push_lookup_ne _ _ x (by omega)]
      exact h2
  | obj fs =>
      have h1 := allocFields_next_mono h fs
      have h2 := allocFields_preserves h fs x hx
      simp only [allocJson]
      rw [Heap.push_lookup_ne _ _ x (by omega)]
      exact h2
termination_by sizeOf j

theorem allocList_preserves (h : Heap) (js : List Json) (x : Nat)
    (hx : x < h.next) : (allocList h js).1.lookup x = h.lookup x := by
  cases js with
  | nil => simp [allocList]
  | cons j rest =>
      have h1 := allocJson_next_mono h j
      have h2 := allocJson_preserves h j x hx
      have h3 := allocList_preserves (allocJson h j).1 rest x (by omega)
      simp only [allocList]
      rw [h3, h2]
termination_by sizeOf js

theorem allocFields_preserves (h : Heap) (fs : List (String × Json))
    (x : Nat) (hx : x < h.next) :
    (allocFields h fs).1.lookup x = h.lookup x := by
  cases fs with
  | nil => simp [allocFields]
  | cons p rest =>
      obtain ⟨k, j⟩ := p
      have h1 := allocJson_next_mono h j
      have h2 := allocJson_preserves h j x hx
      have h3 := allocFields_preserves (allocJson h j).1 rest x (by omega)
      simp only [allocFields]
      rw [h3, h2]
termination_by sizeOf fs

end

theorem Heap.push_next (h : Heap) (nd : Node) :
    (h.push nd).1.next = h.next + 1 := rfl

theorem Heap.push_root (h : Heap) (nd : Node) : (h.push nd).2 = h.next := rfl

mutual

theorem allocJson_regionInv (h : Heap) (j : Json) :
    RegionInv (allocJson h j).1 h.next (allocJson h j).1.next := by
  cases j with
  | null =>
      intro x hx1 hx2
      simp only [allocJson, Heap.push_next] at hx2 ⊢
      have hxe : x = h.next := by omega
      subst hxe
      exact ⟨Node.null, Heap.push_lookup_self h _, by simp [childAddrs]⟩
  | bool b =>
      intro x hx1 hx2
      simp only [allocJson, Heap.push_next] at hx2 ⊢
      have hxe : x = h.next := by omega
      subst hxe
      exact ⟨Node.bool b, Heap.push_lookup_self h _, by simp [childAddrs]⟩
  | num n =>
      intro x hx1 hx2
      simp only [allocJson, Heap.push_next] at hx2 ⊢
      have hxe : x = h.next := by omega
      subst hxe
      exact ⟨Node.num n, Heap.push_lookup_self h _, by simp [childAddrs]⟩
  | str s =>
      intro x hx1 hx2
      simp only [allocJson, Heap.push_next] at hx2 ⊢
      have hxe : x = h.next := by omega
      subst hxe
      exact ⟨Node.str s, Heap.push_lookup_self h _, by simp [childAddrs]⟩
  | arr es =>
      intro x hx1 hx2
      have hm := allocList_next_mono h es
      simp only [allocJson, Heap.push_next] at hx2 ⊢
      by_cases hx : x = (allocList h es).1.next
      · subst hx
        refine ⟨Node.arr (allocList h es).2, Heap.push_lookup_self _ _, ?_⟩
        intro c hc
        simp only [childAddrs] at hc
        have := allocList_root_bounds h es c hc
        omega
      · have hlt : x < (allocList h es).1.next := by omega
        obtain ⟨nd, hnd, hc⟩ := allocList_regionInv h es x hx1 hlt
        refine ⟨nd, ?_, hc⟩
        rw [Heap.push_lookup_ne _ _ x hx]
        exact hnd
  | obj fs =>
      intro x hx1 hx2
      have hm := allocFields_next_mono h fs
      simp only [allocJson, Heap.push_next] at hx2 ⊢
      by_cases hx : x = (allocFields h fs).1.next
      · subst hx
        refine ⟨Node.obj (allocFields h fs).2, Heap.push_lookup_self _ _, ?_⟩
        intro c hc
        simp only [childAddrs, List.mem_map] at hc
        obtain ⟨⟨k, a⟩, hmem, hca⟩ := hc
        subst hca
        have := allocFields_root_bounds h fs k a hmem
        omega
      · have hlt : x < (allocFields h fs).1.next := by omega
        obtain ⟨nd, hnd, hc⟩ := allocFields_regionInv h fs x hx1 hlt
        refine ⟨nd, ?_, hc⟩
        rw [Heap.push_lookup_ne _ _ x hx]
        exact hnd
termination_by sizeOf j

theorem allocList_regionInv (h : Heap) (js : List Json) :
    RegionInv (allocList h js).1 h.next (allocList h js).1.next := by
  cases js with
  | nil =>
      intro x hx1 hx2
      simp only [allocList] at hx2
      omega
  | cons j rest =>
      intro x hx1 hx2
      have hm1 := allocJson_next_mono h j
      have hm2 := allocList_next_mono (allocJson h j).1 rest
      simp only [allocList] at hx2 ⊢
      by_cases hx : x < (allocJson h j).1.next
      · obtain ⟨nd, hnd, hc⟩ := allocJson_regionInv h j x hx1 hx
        refine ⟨nd, ?_, hc⟩
        rw [allocList_preserves (allocJson h j).1 rest x hx]
        exact hnd
      · obtain ⟨nd, hnd, hc⟩ := allocList_regionInv (allocJson h j).1 rest x
          (by omega) hx2
        refine ⟨nd, hnd, fun c hc2 => ?_⟩
        have hb := hc c hc2
        exact ⟨by omega, hb.2⟩
termination_by sizeOf js

theorem allocFields_regionInv (h : Heap) (fs : List (String × Json)) :
    RegionInv (allocFields h fs).1 h.next (allocFields h fs).1.next := by
  cases fs with
  | nil =>
      intro x hx1 hx2
      simp only [allocFields] at hx2
      omega
  | cons p rest =>
      obtain ⟨k, j⟩ := p
      intro x hx1 hx2
      have hm1 := allocJson_next_mono h j
      have hm2 := allocFields_next_mono (allocJson h j).1 rest
      simp only [allocFields] at hx2 ⊢
      by_cases hx : x < (allocJson h j).1.next
      · obtain ⟨nd, hnd, hc⟩ := allocJson_regionInv h j x hx1 hx
        refine ⟨nd, ?_, hc⟩
        rw [allocFields_preserves (allocJson h j).1 rest x hx]
        exact hnd
      · obtain ⟨nd, hnd, hc⟩ := allocFields_regionInv (allocJson h j).1 rest x
          (by omega) hx2
        refine ⟨nd, hnd, fun c hc2 => ?_⟩
        have hb := hc c hc2
        exact ⟨by omega, hb.2⟩
termination_by sizeOf fs

end

theorem RegionInv.transport (h h2 : Heap) (lo hi : Nat)
    (hagree : ∀ x, lo ≤ x → x < hi → h2.lookup x = h.lookup x)
    (hinv : RegionInv h lo hi) : RegionInv h2 lo hi := by
  intro x hx1 hx2
  obtain ⟨nd, hnd, hc⟩ := hinv x hx1 hx2
  exact ⟨nd, by rw [hagree x hx1 hx2]; exact hnd, hc⟩

theorem Reaches.region (h : Heap) (lo hi : Nat) (hinv : RegionInv h lo hi) :
    ∀ a b, Reaches h a b → lo ≤ a → a < hi → lo ≤ b ∧ b < hi := by
  intro a b hr
  induction hr with
  | refl x => intro h1 h2; exact ⟨h1, h2⟩
  | step x y z nd hlk hmem _ ih =>
      intro h1 h2
      obtain ⟨nd2, hnd2, hc⟩ := hinv x h1 h2
      rw [hlk] at hnd2
      injection hnd2 with he
      subst he
      have hy := hc y hmem
      exact ih hy.1 (by omega)

mutual

theorem readback_frame (fuel : Nat) (h h2 : Heap) (a : Nat)
    (hag : ∀ b, Reaches h a b → h2.lookup b = h.lookup b) :
    readback fuel h2 a = readback fuel h a := by
  cases fuel with
  | zero => simp [readback]
  | succ fuel =>
      have hl : h2.lookup a = h.lookup a := hag a (Reaches.refl a)
      simp only [readback, hl]
      cases hnd : h.lookup a with
      | none => rfl
      | some nd =>
          cases nd with
          | null => rfl
          | bool b => rfl
          | num n => rfl
          | str s => rfl
          | arr as =>
              have hlist := readbackList_frame fuel h h2 as
                (fun x hx b hb => hag b (Reaches.step a x b _ hnd hx hb))
              show Option.map Json.arr (readbackList fuel h2 as) =
                Option.map Json.arr (readbackList fuel h as)
              rw [hlist]
          | obj fas =>
              have hflds := readbackFields_frame fuel h h2 fas
                (fun k x hx b hb => hag b (Reaches.step a x b _ hnd
                  (List.mem_map_of_mem Prod.snd hx) hb))
              show Option.map Json.obj (readbackFields fuel h2 fas) =
                Option.map Json.obj (readbackFields fuel h fas)
              rw [hflds]
termination_by (fuel, 0)

theorem readbackList_frame (fuel : Nat) (h h2 : Heap) (as : List Nat)
    (hag : ∀ x ∈ as, ∀ b, Reaches h x b → h2.lookup b = h.lookup b) :
    readbackList fuel h2 as = readbackList fuel h as := by
  cases as with
  | nil => simp [readbackList]
  | cons a rest =>
      have h1 := readback_frame fuel h h2 a (hag a (List.mem_cons_self a rest))
      have h2r := readbackList_frame fuel h h2 rest
        (fun x hx => hag x (List.mem_cons_of_mem a hx))
      simp only [readbackList, h1, h2r]
termination_by (fuel, as.length + 1)

theorem readbackFields_frame (fuel : Nat) (h h2 : Heap)
    (fas : List (String × Nat))
    (hag : ∀ k x, (k, x) ∈ fas → ∀ b, Reaches h x b →
      h2.lookup b = h.lookup b) :
    readbackFields fuel h2 fas = readbackFields fuel h fas := by
  cases fas with
  | nil => simp [readbackFields]
  | cons p rest =>
      obtain ⟨k, a⟩ := p
      have h1 := readback_frame fuel h h2 a
        (hag k a (List.mem_cons_self (k, a) rest))
      have h2r := readbackFields_frame fuel h h2 rest
        (fun k2 x hx => hag k2 x (List.mem_cons_of_mem (k, a) hx))
      simp only [readbackFields, h1, h2r]
termination_by (fuel, fas.length + 1)

end

theorem foldl_merge_mem (copy : List (String × Nat))
    (init : List (String × Nat)) (k : String) (a : Nat)
    (hmem : (k, a) ∈ copy.foldl
      (fun cur kv => match alookup cur kv.1 with
        | some _ => cur
        | none => cur ++ [kv]) init) :
    (k, a) ∈ init ∨ (k, a) ∈ copy := by
  induction copy generalizing init with
  | nil => exact Or.inl hmem
  | cons p rest ih =>
      rw [List.foldl_cons] at hmem
      cases halo : alookup init p.1 with
      | some v =>
          simp only [halo] at hmem
          rcases ih init hmem with h | h
          · exact Or.inl h
          · exact Or.inr (List.mem_cons_of_mem p h)
      | none =>
          simp only [halo] at hmem
          rcases ih (init ++ [p]) hmem with h | h
          · rcases List.mem_append.mp h with h2 | h2
            · exact Or.inl h2
            · rcases List.mem_singleton.mp h2 with rfl
              exact Or.inr (List.mem_cons_self _ rest)
          · exact Or.inr (List.mem_cons_of_mem p h)

/-- C8: once the previous snapshot has been loaded, it is read-only: no
mutation of the current mapping — neither in-place mutation of any
object reachable from a current value (including values merged in from
the previous snapshot, which are deep copies) nor `config[k] = v`
assignment — changes the contents (the `readback`) of the `_prev_dict`
snapshot held by the instance. -/
theorem C8_previous_readonly (curJson prevJson : List (String × Json))
    (k : String) (a : Nat) (k2 : String) (r b : Nat) (nd : Node)
    (hprev : (k, a) ∈ (mkHConfig curJson prevJson).prev)
    (hcur : (k2, r) ∈ (mkHConfig curJson prevJson).current)
    (hreach : Reaches (mkHConfig curJson prevJson).heap r b) :
    (∀ fuel,
      readback fuel ((mkHConfig curJson prevJson).heap.mutate b nd) a =
        readback fuel (mkHConfig curJson prevJson).heap a) ∧
    (∀ (k3 : String) (a3 : Nat),
      ((mkHConfig curJson prevJson).set k3 a3).heap =
        (mkHConfig curJson prevJson).heap ∧
      ((mkHConfig curJson prevJson).set k3 a3).prev =
        (mkHConfig curJson prevJson).prev) := by
  refine ⟨fun fuel => ?_, fun k3 a3 => ⟨rfl, rfl⟩⟩
  have hbnds : (allocFields emptyHeap curJson).1.next ≤ a ∧
      a < (allocFields (allocFields emptyHeap curJson).1 prevJson).1.next :=
    allocFields_root_bounds (allocFields emptyHeap curJson).1 prevJson k a
      hprev
  have hinvPrev : RegionInv
      (allocFields (allocFields (allocFields emptyHeap curJson).1
        prevJson).1 prevJson).1
      (allocFields emptyHeap curJson).1.next
      (allocFields (allocFields emptyHeap curJson).1 prevJson).1.next :=
    RegionInv.transport _ _ _ _
      (fun x _ hx2 => allocFields_preserves
        (allocFields (allocFields emptyHeap curJson).1 prevJson).1 prevJson
        x hx2)
      (allocFields_regionInv (allocFields emptyHeap curJson).1 prevJson)
  have hclosure : ∀ c,
      Reaches (allocFields (allocFields (allocFields emptyHeap curJson).1
        prevJson).1 prevJson).1 a c →
      (allocFields emptyHeap curJson).1.next ≤ c ∧
      c < (allocFields (allocFields emptyHeap curJson).1 prevJson).1.next :=
    fun c hc => Reaches.region _ _ _ hinvPrev a c hc hbnds.1 hbnds.2
  have hsplit := foldl_merge_mem
    (allocFields (allocFields (allocFields emptyHeap curJson).1 prevJson).1
      prevJson).2
    (allocFields emptyHeap curJson).2 k2 r hcur
  have hbreg : b < (allocFields emptyHeap curJson).1.next ∨
      (allocFields (allocFields emptyHeap curJson).1 prevJson).1.next ≤ b := by
    rcases hsplit with hc1 | hc3
    · have hinv1 : RegionInv (allocFields emptyHeap curJson).1 0
          (allocFields emptyHeap curJson).1.next :=
        allocFields_regionInv emptyHeap curJson
      have hmono2 := allocFields_next_mono
        (allocFields emptyHeap curJson).1 prevJson
      have hinv13 : RegionInv
          (allocFields (allocFields (allocFields emptyHeap curJson).1
            prevJson).1 prevJson).1 0
          (allocFields emptyHeap curJson).1.next :=
        RegionInv.transport _ _ _ _
          (fun x _ hx2 => by
            rw [allocFields_preserves
                (allocFields (allocFields emptyHeap curJson).1 prevJson).1
                prevJson x (by omega),
              allocFields_preserves (allocFields emptyHeap curJson).1
                prevJson x hx2])
          hinv1
      have hrb := allocFields_root_bounds emptyHeap curJson k2 r hc1
      have hb2 := Reaches.region _ _ _ hinv13 r b hreach (by omega) hrb.2
      exact Or.inl hb2.2
    · have hinv3 : RegionInv
          (allocFields (allocFields (allocFields emptyHeap curJson).1
            prevJson).1 prevJson).1
          (allocFields (allocFields emptyHeap curJson).1 prevJson).1.next
          (allocFields (allocFields (allocFields emptyHeap curJson).1
            prevJson).1 prevJson).1.next :=
        allocFields_regionInv
          (allocFields (allocFields emptyHeap curJson).1 prevJson).1 prevJson
      have hrb := allocFields_root_bounds
        (allocFields (allocFields emptyHeap curJson).1 prevJson).1 prevJson
        k2 r hc3
      have hb2 := Reaches.region _ _ _ hinv3 r b hreach hrb.1 hrb.2
      exact Or.inr hb2.1
  exact readback_frame fuel _ _ a
    (fun c hc => Heap.mutate_lookup_ne _ b nd c (by
      have hcb := hclosure c hc
      omega))

/-- Witness for C8 at a concrete construction: the snapshot value held
at address 2 reads back as 3 and is untouched by mutating address 0,
the nested element of the current mapping's list value. -/
theorem C8_previous_readonly_witness :
    readback 3 ((mkHConfig [("x", Json.arr [Json.num 5])]
        [("p", Json.num 3)]).heap.mutate 0 (Node.num 99)) 2 =
      readback 3 (mkHConfig [("x", Json.arr [Json.num 5])]
        [("p", Json.num 3)]).heap 2 ∧
    readback 3 (mkHConfig [("x", Json.arr [Json.num 5])]
        [("p", Json.num 3)]).heap 2 = some (Json.num 3) :=
  ⟨(C8_previous_readonly [("x", Json.arr [Json.num 5])] [("p", Json.num 3)]
      "p" 2 "x" 1 0 (Node.num 99)
      (by simp [mkHConfig, allocFields, allocJson, allocList, Heap.push,
        emptyHeap])
      (by simp [mkHConfig, allocFields, allocJson, allocList, Heap.push,
        emptyHeap, alookup])
      (Reaches.step 1 0 0 (Node.arr [0])
        (by simp [mkHConfig, allocFields, allocJson, allocList, Heap.push,
          emptyHeap, Heap.lookup, alookup])
        (by simp [childAddrs])
        (Reaches.refl 0))).1 3,
   by simp [mkHConfig, allocFields, allocJson, allocList, Heap.push,
     emptyHeap, Heap.lookup, alookup, readback]⟩
